import Mathlib

/-!
Shallow embedding of `qvalue.py` (Storey–Tibshirani q-value estimation).

Real / float arithmetic of the source is modelled exactly over `ℚ`.
The two functions of the source, `qvalue` and `estimate_pi0`, are embedded
as `Qvalue.qvalueRun` / `Qvalue.qvalueFlat` and `Qvalue.estimate_pi0`.
Python exceptions are modelled with `Except` / `Option`.
-/

namespace Qvalue

/-- The lambda grid `np.arange(0, 0.95, 0.01)` of `estimate_pi0`: the 95 values
0.00, 0.01, ..., 0.94, modelled exactly as the rationals `k/100`. -/
def lam : List ℚ := (List.range 95).map (fun k : ℕ => (k : ℚ) / 100)

/-- Model of `(pv > pvalue).sum()`: the number of p-values strictly greater
than the threshold `l`. -/
def countExceeding (pv : List ℚ) (l : ℚ) : ℕ := pv.countP (fun p => decide (l < p))

/-- Model of the pi0-candidate loop in `estimate_pi0`: walk the lambda grid in
order, stop at the first lambda with no p-value above it (`counts[idx] == 0`),
and for each retained lambda append `counts[idx] / (m * (1 - lam[idx]))`. -/
def pi0s (pv : List ℚ) (m : ℚ) : List ℚ :=
  (lam.takeWhile (fun l => decide (0 < countExceeding pv l))).map
    (fun l => (countExceeding pv l : ℚ) / (m * (1 - l)))

/-- Mean of the suffix `l[i:]`, modelling `np.mean(pi0s[idx:])`. -/
def suffixMean (l : List ℚ) (i : ℕ) : ℚ := (l.drop i).sum / ((l.drop i).length : ℚ)

/-- The square of `np.std(l[i:], ddof=1)`: the Bessel-corrected sample variance
of the suffix `l[i:]` (sum of squared deviations from the mean, divided by
`n - 1`).  The scan below minimizes this quantity; since the square root is
strictly monotone on nonnegative numbers, the index minimizing `sampleVar` is
exactly the index minimizing the standard deviation, with ties resolved the
same way. -/
def sampleVar (l : List ℚ) (i : ℕ) : ℚ :=
  ((l.drop i).map (fun x => (x - suffixMean l i) ^ 2)).sum
    / (((l.drop i).length - 1 : ℕ) : ℚ)

/-- One iteration of the min-stdev scan in `estimate_pi0`: the accumulator
`(min_stdev, min_idx)`, where `none` models the initial state
`min_stdev = inf, min_idx = None`, and a strictly smaller value replaces the
incumbent. -/
def sdStep (ps : List ℚ) (best : Option (ℚ × ℕ)) (idx : ℕ) : Option (ℚ × ℕ) :=
  match best with
  | none => some (sampleVar ps idx, idx)
  | some (bs, bi) =>
    if sampleVar ps idx < bs then some (sampleVar ps idx, idx) else some (bs, bi)

/-- The full min-stdev scan: fold `sdStep` over the index range `sd_range`. -/
def sdFold (ps : List ℚ) (idxs : List ℕ) (best : Option (ℚ × ℕ)) : Option (ℚ × ℕ) :=
  idxs.foldl (sdStep ps) best

/-- Model of `estimate_pi0(pv, m, pi0)`.  A supplied `pi0` is returned
unchanged; fewer than 100 p-values give the conservative fallback `1.0`
(with a stderr warning, not modelled).  Otherwise the candidates are scanned
over `sd_range = range(min(int(lam_len * 0.90), pi0s_len - 5))`
(`int(95 * 0.90) = 85`, modelled by truncating natural division, and Python's
empty `range` on a nonpositive bound coincides with `List.range` on the
truncated natural subtraction).  The result `none` models the uncaught
`KeyError` raised by `means[min_idx]` when the scan range is empty and
`min_idx` is still `None`.  The final clamp models `if pi0 > 1: pi0 = 1.0`. -/
def estimate_pi0 (pv : List ℚ) (m : ℚ) (pi0 : Option ℚ) : Option ℚ :=
  match pi0 with
  | some p => some p
  | none =>
    if pv.length < 100 then some 1
    else
      let ps := pi0s pv m
      let sdRange := List.range (min (lam.length * 90 / 100) (ps.length - 5))
      match sdFold ps sdRange none with
      | none => none
      | some (_, minIdx) =>
        let p0 := suffixMean ps minIdx
        some (if 1 < p0 then 1 else p0)

/-- Model of `np.argsort(pv)`: a permutation of the index list
`[0, ..., n-1]` that sorts by p-value.  `np.argsort`'s ordering among equal
p-values is an unspecified implementation detail; this model fixes the stable
order. -/
def argsortIdx (pv : List ℚ) : List ℕ :=
  List.insertionSort (fun i j => pv.getD i 0 ≤ pv.getD j 0) (List.range pv.length)

/-- The initial per-rank q-values on the sorted p-values:
`pi0 * m * pv[i] / (i+1)` with `c = pi0 * m` and 0-based rank `i`.  The last
entry `i = n-1` coincides with `qv[-1] = pi0 * m * pv[-1] / pv_len`; no clamp
to 1 is applied anywhere in the source. -/
def initQ (c : ℚ) (s : List ℚ) : List ℚ :=
  (List.range s.length).map (fun k => c * s.getD k 0 / (k + 1))

/-- The backwards monotonization loop
`for i in range(pv_len - 2, -1, -1): qv[i] = min(..., qv[i+1])`:
each entry becomes the minimum of its own initial value and the already
finalized next entry; the last entry is left as is. -/
def backMin : List ℚ → List ℚ
  | [] => []
  | x :: xs =>
    match backMin xs with
    | [] => [x]
    | y :: ys => min x y :: y :: ys

/-- Model of the core q-value computation of `qvalue` on the flattened
p-values, after `pi0` has been determined: sort (`pv = pv[p_ordered]`),
compute initial q-values, monotonize backwards, and scatter back
(`qv[p_ordered] = qv.copy()`, i.e. the output at original position `i` is the
monotonized value at the sorted position of `i`). -/
def qvalueFlat (pv : List ℚ) (pi0 m : ℚ) : List ℚ :=
  let ord := argsortIdx pv
  let psorted := ord.map (fun i => pv.getD i 0)
  let qs := backMin (initQ (pi0 * m) psorted)
  (List.range pv.length).map (fun i => qs.getD (ord.indexOf i) 0)

/-- A numpy array of rationals: a shape together with the flattened
(ravelled, C-order) data. -/
structure NDArray where
  shape : List ℕ
  data : List ℚ
deriving DecidableEq, Repr

/-- The Python exceptions the `qvalue` entry point can raise. -/
inductive PyErr where
  /-- `ValueError` from a numpy reduction (`pv.min()`) on an empty array. -/
  | valueError
  /-- The failed `assert` on the p-value range (the InvalidInput condition). -/
  | assertError
  /-- `KeyError` from `means[min_idx]` with `min_idx = None` in `estimate_pi0`. -/
  | keyError
deriving DecidableEq, Repr

/-- The test count: `m = pv.size` when `m` is not given, and `m * 1.0`
(the user value) otherwise. -/
def defaultM (pv : List ℚ) (m : Option ℚ) : ℚ :=
  match m with
  | none => (pv.length : ℚ)
  | some mm => mm

/-- Model of the full `qvalue(pv, pi0, m)` entry point: `pv.min()` / `pv.max()`
raise `ValueError` on an empty array; the assert rejects p-values outside
`[0, 1]`; `m` defaults to the element count; `estimate_pi0` may raise
`KeyError`; finally the flattened q-values are computed and reshaped to the
original shape, and the pair `(qv, pi0)` is returned. -/
def qvalueRun (a : NDArray) (pi0 : Option ℚ) (m : Option ℚ) :
    Except PyErr (NDArray × ℚ) :=
  match a.data.min?, a.data.max? with
  | none, _ => .error .valueError
  | _, none => .error .valueError
  | some lo, some hi =>
    if 0 ≤ lo ∧ hi ≤ 1 then
      let pv := a.data
      let mv : ℚ := defaultM pv m
      match estimate_pi0 pv mv pi0 with
      | none => .error .keyError
      | some p0 => .ok (⟨a.shape, qvalueFlat pv p0 mv⟩, p0)
    else .error .assertError

/-- The sorted p-values themselves (the image of `argsortIdx` under lookup,
proved equal below); sorting values directly is the permutation-invariant
form used to state order-insensitivity. -/
def sortedVals (pv : List ℚ) : List ℚ := List.insertionSort (· ≤ ·) pv

/-- Number of entries of `s` strictly below `p`: in a sorted list this is the
first position whose value is at least `p`. -/
def countLt (s : List ℚ) (p : ℚ) : ℕ := s.countP (fun x => decide (x < p))

/-- Value-level characterization of a q-value: the monotonized q-value at the
first sorted position carrying the value `p`.  It depends only on `p` and on
the multiset of p-values. -/
def qOf (c : ℚ) (pv : List ℚ) (p : ℚ) : ℚ :=
  (backMin (initQ c (sortedVals pv))).getD (countLt (sortedVals pv) p) 0

/-! ### Generic list helpers -/

theorem getD_map_lt {α β : Type} (f : α → β) (l : List α) (i : ℕ)
    (h : i < l.length) (d : β) (e : α) : (l.map f).getD i d = f (l.getD i e) := by
  rw [List.getD_eq_getElem _ _ (by simpa using h), List.getD_eq_getElem _ _ h]
  simp

theorem map_getD_range_eq (l : List ℚ) : (List.range l.length).map (fun i => l.getD i 0) = l := by
  apply List.ext_getElem
  · simp
  · intro i h1 h2
    have hi : i < l.length := by simpa using h2
    rw [List.getElem_map, List.getElem_range, List.getD_eq_getElem _ _ hi]

/-! ### Lemmas about the backwards monotonization scan -/

theorem backMin_length (l : List ℚ) : (backMin l).length = l.length := by
  induction l with
  | nil => rfl
  | cons x xs ih =>
    rw [backMin]
    cases h : backMin xs with
    | nil => simp_all
    | cons y ys => simp_all

theorem backMin_ne_nil (l : List ℚ) (h : l ≠ []) : backMin l ≠ [] := by
  intro hc
  apply h
  have := backMin_length l
  rw [hc] at this
  exact List.length_eq_zero.mp this.symm

/-- The scan leaves the last entry unchanged. -/
theorem backMin_getD_last (l : List ℚ) (h : l ≠ []) :
    (backMin l).getD (l.length - 1) 0 = l.getD (l.length - 1) 0 := by
  induction l with
  | nil => exact absurd rfl h
  | cons x xs ih =>
    cases hxs : xs with
    | nil =>
      subst hxs
      simp [backMin]
    | cons a as =>
      subst hxs
      obtain ⟨y, ys, hbm⟩ := List.exists_cons_of_ne_nil (backMin_ne_nil (a :: as) (by simp))
      have hstep : backMin (x :: a :: as) = min x y :: backMin (a :: as) := by
        rw [backMin, hbm]
      have hlen : (x :: a :: as).length - 1 = as.length + 1 := by simp
      rw [hstep, hlen, List.getD_cons_succ, List.getD_cons_succ]
      have hh := ih (by simp)
      simpa using hh

/-- The defining recurrence of the scan: away from the last entry,
`qv[k] = min(init[k], qv[k+1])`. -/
theorem backMin_getD_min (l : List ℚ) (k : ℕ) (h : k + 1 < l.length) :
    (backMin l).getD k 0 = min (l.getD k 0) ((backMin l).getD (k + 1) 0) := by
  induction l generalizing k with
  | nil => simp at h
  | cons x xs ih =>
    have hne : xs ≠ [] := by
      intro hc
      rw [hc] at h
      simp at h
    obtain ⟨y, ys, hbm⟩ := List.exists_cons_of_ne_nil (backMin_ne_nil xs hne)
    have hstep : backMin (x :: xs) = min x y :: backMin xs := by
      rw [backMin, hbm]
    cases k with
    | zero =>
      rw [hstep]
      simp only [List.getD_cons_zero, List.getD_cons_succ]
      rw [hbm]
      simp
    | succ k =>
      rw [hstep]
      simp only [List.getD_cons_succ]
      exact ih k (by simpa using h)

/-- The monotonized q-values are sorted: each entry is at most every later
entry. -/
theorem backMin_sorted (l : List ℚ) : List.Sorted (· ≤ ·) (backMin l) := by
  induction l with
  | nil => simp [backMin]
  | cons x xs ih =>
    rw [backMin]
    cases hbm : backMin xs with
    | nil => simp
    | cons y ys =>
      rw [hbm] at ih
      rw [List.sorted_cons] at ih
      refine List.sorted_cons.mpr ⟨?_, List.sorted_cons.mpr ih⟩
      intro b hb
      rcases List.mem_cons.mp hb with rfl | hb
      · exact min_le_right x b
      · exact le_trans (min_le_right x y) (ih.1 b hb)

set_option maxRecDepth 40000 in
/-- C4: the claim says data-quality issues never abort `estimate_pi0` and a
degenerate stdev search region (5 or fewer surviving candidates) still yields
a best-effort mean.  The code disagrees: 100 p-values equal to `1/200` are a
valid input with exactly one surviving candidate (no p-value exceeds
`lambda = 0.01`), the search range `range(min(85, 1 - 5))` is empty,
`min_idx` stays `None`, and `means[None]` raises an uncaught `KeyError`
(modelled by `none`) instead of returning a value. -/
theorem estimate_pi0_crashes_on_degenerate_search :
    estimate_pi0 (List.replicate 100 (1/200 : ℚ)) 100 none = none := by
  with_unfolding_all rfl

set_option maxRecDepth 40000 in
/-- C5: the claim says an all-zero input always completes with all-zero
q-values.  For 100 zeros with no pi0 override no p-value exceeds
`lambda = 0`, so the candidate list is empty and `estimate_pi0` raises the
uncaught `KeyError` (`means[None]`); `qvalue` propagates it instead of
returning q-values. -/
theorem qvalue_crashes_on_100_zeros :
    qvalueRun ⟨[100], List.replicate 100 (0 : ℚ)⟩ none none =
      Except.error PyErr.keyError := by
  with_unfolding_all rfl

/-- C8: an override pi0 is returned unchanged, bypassing estimation entirely
and regardless of sample size (`pv` is arbitrary), and with no override fewer
than 100 p-values give exactly `1.0` (the stderr warning is an unmodelled
side effect). -/
theorem estimate_pi0_short_circuit (pv pv2 : List ℚ) (m o : ℚ)
    (h : pv2.length < 100) :
    estimate_pi0 pv m (some o) = some o ∧ estimate_pi0 pv2 m none = some 1 := by
  refine ⟨rfl, ?_⟩
  unfold estimate_pi0
  simp [h]

/-- Witness for C8 at concrete inputs: an override `3/4` passed through a
150-element sample, and the fallback `1.0` on a single p-value. -/
theorem estimate_pi0_short_circuit_witness :
    estimate_pi0 (List.replicate 150 ((1:ℚ)/2)) 150 (some (3/4)) = some (3/4) ∧
      estimate_pi0 [(1:ℚ)/2] 150 none = some 1 :=
  estimate_pi0_short_circuit (List.replicate 150 ((1:ℚ)/2)) [(1:ℚ)/2] 150 (3/4)
    (by decide)

/-- C3 counterexample: with the valid p-values `[1/2, 1]`, `pi0 = 1 ∈ (0,1]`
and positive test count `m = 4` (larger than the number of p-values), the
computed q-values are `[2, 2]`: the largest-p-value q-value is not clamped to
1 (no clamp exists in the code) and the output leaves `[0, 1]`. -/
theorem qvalue_not_clamped_counterexample :
    ((0:ℚ) < 1 ∧ (1:ℚ) ≤ 1) ∧ (0:ℚ) < 4 ∧
      (∀ p ∈ [(1:ℚ)/2, 1], 0 ≤ p ∧ p ≤ 1) ∧
      qvalueFlat [(1:ℚ)/2, 1] 1 4 = [2, 2] ∧ ¬((2:ℚ) ≤ 1) := by
  with_unfolding_all decide

/-- C7 counterexample: for the empty input every p-value vacuously lies in
`[0, 1]`, yet the computation does not proceed past validation: `pv.min()`
raises `ValueError` on an empty array before the assert can run. -/
theorem qvalue_empty_input_counterexample :
    (∀ p ∈ ([] : List ℚ), 0 ≤ p ∧ p ≤ 1) ∧
      qvalueRun ⟨[0], []⟩ none none = Except.error PyErr.valueError :=
  ⟨by simp, by with_unfolding_all rfl⟩


/-- Pointwise monotonicity of the scan result across positions. -/
theorem backMin_getD_mono (l : List ℚ) (k j : ℕ) (hkj : k ≤ j) (hj : j < l.length) :
    (backMin l).getD k 0 ≤ (backMin l).getD j 0 := by
  rcases eq_or_lt_of_le hkj with rfl | hlt
  · exact le_refl _
  · have hs := backMin_sorted l
    have hk : k < (backMin l).length := by rw [backMin_length]; omega
    have hj2 : j < (backMin l).length := by rw [backMin_length]; exact hj
    have hrel := hs.rel_get_of_lt (a := ⟨k, hk⟩) (b := ⟨j, hj2⟩) (by simpa using hlt)
    rw [List.getD_eq_getElem _ _ hk, List.getD_eq_getElem _ _ hj2]
    simpa using hrel

/-- Each monotonized entry is at most the corresponding initial entry. -/
theorem backMin_getD_le_self (l : List ℚ) (j : ℕ) (hj : j < l.length) :
    (backMin l).getD j 0 ≤ l.getD j 0 := by
  rcases Nat.lt_or_ge (j + 1) l.length with h2 | h2
  · rw [backMin_getD_min l j h2]
    exact min_le_left _ _
  · have hne : l ≠ [] := by
      intro hc
      subst hc
      simp at hj
    have h1 : j = l.length - 1 := by omega
    rw [h1, backMin_getD_last l hne]

/-- A monotonized entry is at most every later initial entry. -/
theorem backMin_getD_le (l : List ℚ) (k j : ℕ) (hkj : k ≤ j) (hj : j < l.length) :
    (backMin l).getD k 0 ≤ l.getD j 0 :=
  le_trans (backMin_getD_mono l k j hkj hj) (backMin_getD_le_self l j hj)

/-- A lower bound on all initial entries is a lower bound on the scan result. -/
theorem le_backMin_getD (l : List ℚ) (b : ℚ) (hb : ∀ x ∈ l, b ≤ x) (k : ℕ)
    (hk : k < l.length) : b ≤ (backMin l).getD k 0 := by
  induction l generalizing k with
  | nil => simp at hk
  | cons x xs ih =>
    cases hxs : xs with
    | nil =>
      subst hxs
      have hk0 : k = 0 := by simp at hk; omega
      subst hk0
      simpa [backMin] using hb x (by simp)
    | cons a as =>
      subst hxs
      obtain ⟨y, ys, hbm⟩ := List.exists_cons_of_ne_nil (backMin_ne_nil (a :: as) (by simp))
      have hstep : backMin (x :: a :: as) = min x y :: backMin (a :: as) := by
        rw [backMin, hbm]
      have hbtail : ∀ z ∈ a :: as, b ≤ z := fun z hz => hb z (List.mem_cons_of_mem x hz)
      cases k with
      | zero =>
        rw [hstep, List.getD_cons_zero]
        refine le_min (hb x (by simp)) ?_
        have h0 := ih hbtail 0 (by simp)
        rw [hbm] at h0
        simpa using h0
      | succ k =>
        rw [hstep, List.getD_cons_succ]
        exact ih hbtail k (by simpa using hk)

/-- If every initial entry strictly between `a` and `a + d` dominates the
monotonized entry at `a + d`, the scan result is constant on `[a, a + d]`. -/
theorem backMin_getD_eq_add (l : List ℚ) (a d : ℕ) (h : a + d < l.length)
    (hge : ∀ j, a ≤ j → j < a + d → (backMin l).getD (a + d) 0 ≤ l.getD j 0) :
    (backMin l).getD a 0 = (backMin l).getD (a + d) 0 := by
  induction d generalizing a with
  | zero => rfl
  | succ d ih =>
    have hd1 : a + 1 + d = a + (d + 1) := by omega
    have ih2 : (backMin l).getD (a + 1) 0 = (backMin l).getD (a + 1 + d) 0 := by
      apply ih
      · omega
      · intro j hj1 hj2
        rw [hd1]
        exact hge j (by omega) (by omega)
    have hstep : (backMin l).getD a 0 =
        min (l.getD a 0) ((backMin l).getD (a + 1) 0) :=
      backMin_getD_min l a (by omega)
    rw [hstep, ih2, hd1]
    exact min_eq_right (hge a (le_refl a) (by omega))

/-! ### Lemmas about argsort and the sorted p-values -/

theorem argsortIdx_perm (pv : List ℚ) :
    List.Perm (argsortIdx pv) (List.range pv.length) :=
  List.perm_insertionSort _ _

theorem argsortIdx_length (pv : List ℚ) : (argsortIdx pv).length = pv.length := by
  rw [(argsortIdx_perm pv).length_eq, List.length_range]

theorem mem_argsortIdx (pv : List ℚ) (i : ℕ) (h : i < pv.length) : i ∈ argsortIdx pv :=
  ((argsortIdx_perm pv).mem_iff).mpr (List.mem_range.mpr h)

theorem argsortIdx_sorted (pv : List ℚ) :
    List.Sorted (fun i j => pv.getD i 0 ≤ pv.getD j 0) (argsortIdx pv) := by
  haveI : IsTotal ℕ (fun i j => pv.getD i 0 ≤ pv.getD j 0) := ⟨fun a b => le_total _ _⟩
  haveI : IsTrans ℕ (fun i j => pv.getD i 0 ≤ pv.getD j 0) :=
    ⟨fun a b c h1 h2 => le_trans h1 h2⟩
  exact List.sorted_insertionSort _ _

/-- The sorted view `pv[p_ordered]` of the p-values. -/
def psortedL (pv : List ℚ) : List ℚ := (argsortIdx pv).map (fun i => pv.getD i 0)

theorem psortedL_length (pv : List ℚ) : (psortedL pv).length = pv.length := by
  rw [psortedL, List.length_map, argsortIdx_length]

theorem psortedL_sorted (pv : List ℚ) : List.Sorted (· ≤ ·) (psortedL pv) := by
  rw [psortedL, List.Sorted, List.pairwise_map]
  exact argsortIdx_sorted pv

theorem psortedL_perm (pv : List ℚ) : List.Perm (psortedL pv) pv := by
  have h1 : List.Perm (psortedL pv) ((List.range pv.length).map (fun i => pv.getD i 0)) :=
    (argsortIdx_perm pv).map _
  rw [map_getD_range_eq] at h1
  exact h1

theorem psortedL_eq_sortedVals (pv : List ℚ) : psortedL pv = sortedVals pv := by
  apply List.eq_of_perm_of_sorted
    ((psortedL_perm pv).trans (List.perm_insertionSort (· ≤ ·) pv).symm)
    (psortedL_sorted pv)
  exact List.sorted_insertionSort _ _

theorem indexOf_argsortIdx_lt (pv : List ℚ) (i : ℕ) (h : i < pv.length) :
    (argsortIdx pv).indexOf i < pv.length := by
  rw [← argsortIdx_length pv]
  exact List.indexOf_lt_length.mpr (mem_argsortIdx pv i h)

theorem argsortIdx_getD_indexOf (pv : List ℚ) (i : ℕ) (h : i < pv.length) :
    (argsortIdx pv).getD ((argsortIdx pv).indexOf i) 0 = i := by
  have hm := mem_argsortIdx pv i h
  have hlt := List.indexOf_lt_length.mpr hm
  rw [List.getD_eq_getElem _ _ hlt]
  exact List.getElem_indexOf hlt

theorem psortedL_getD_indexOf (pv : List ℚ) (i : ℕ) (h : i < pv.length) :
    (psortedL pv).getD ((argsortIdx pv).indexOf i) 0 = pv.getD i 0 := by
  have hlt : (argsortIdx pv).indexOf i < (argsortIdx pv).length := by
    rw [argsortIdx_length]
    exact indexOf_argsortIdx_lt pv i h
  rw [psortedL, getD_map_lt _ _ _ hlt 0 0, argsortIdx_getD_indexOf pv i h]

/-! ### Lemmas about the initial q-values and the core computation -/

theorem initQ_length (c : ℚ) (s : List ℚ) : (initQ c s).length = s.length := by
  rw [initQ, List.length_map, List.length_range]

theorem getD_range_lt (n k : ℕ) (h : k < n) : (List.range n).getD k 0 = k := by
  rw [List.getD_eq_getElem _ _ (by simpa using h)]
  simp

theorem initQ_getD (c : ℚ) (s : List ℚ) (k : ℕ) (h : k < s.length) :
    (initQ c s).getD k 0 = c * s.getD k 0 / (k + 1) := by
  rw [initQ, getD_map_lt _ _ _ (by simpa using h) 0 0, getD_range_lt _ _ h]

theorem qvalueFlat_eq (pv : List ℚ) (pi0 m : ℚ) :
    qvalueFlat pv pi0 m = (List.range pv.length).map
      (fun i => (backMin (initQ (pi0 * m) (psortedL pv))).getD
        ((argsortIdx pv).indexOf i) 0) := rfl

theorem qvalueFlat_length (pv : List ℚ) (pi0 m : ℚ) :
    (qvalueFlat pv pi0 m).length = pv.length := by
  rw [qvalueFlat_eq, List.length_map, List.length_range]

theorem qvalueFlat_getD (pv : List ℚ) (pi0 m : ℚ) (i : ℕ) (h : i < pv.length) :
    (qvalueFlat pv pi0 m).getD i 0 =
      (backMin (initQ (pi0 * m) (psortedL pv))).getD ((argsortIdx pv).indexOf i) 0 := by
  rw [qvalueFlat_eq, getD_map_lt _ _ _ (by simpa using h) 0 0, getD_range_lt _ _ h]


/-- Strictly smaller p-values sit at strictly earlier sorted positions. -/
theorem indexOf_lt_indexOf_of_lt (pv : List ℚ) (i j : ℕ) (hi : i < pv.length)
    (hj : j < pv.length) (hij : pv.getD i 0 < pv.getD j 0) :
    (argsortIdx pv).indexOf i < (argsortIdx pv).indexOf j := by
  by_contra hcon
  push_neg at hcon
  have hvi := psortedL_getD_indexOf pv i hi
  have hvj := psortedL_getD_indexOf pv j hj
  have hmono : (psortedL pv).getD ((argsortIdx pv).indexOf j) 0 ≤
      (psortedL pv).getD ((argsortIdx pv).indexOf i) 0 := by
    rcases eq_or_lt_of_le hcon with heq | hlt
    · rw [heq]
    · have hs := psortedL_sorted pv
      have hpi2 : (argsortIdx pv).indexOf i < (psortedL pv).length := by
        rw [psortedL_length]
        exact indexOf_argsortIdx_lt pv i hi
      have hpj2 : (argsortIdx pv).indexOf j < (psortedL pv).length := by
        rw [psortedL_length]
        exact indexOf_argsortIdx_lt pv j hj
      have hrel := hs.rel_get_of_lt
        (a := ⟨(argsortIdx pv).indexOf j, hpj2⟩)
        (b := ⟨(argsortIdx pv).indexOf i, hpi2⟩) (by simpa using hlt)
      rw [List.getD_eq_getElem _ _ hpj2, List.getD_eq_getElem _ _ hpi2]
      simpa using hrel
  rw [hvi, hvj] at hmono
  exact absurd hij (not_lt.mpr hmono)

/-- C2: monotonicity.  For every valid input (all p-values in `[0,1]`) and
fixed `pi0` and `m`, whenever `p[i] < p[j]` the returned q-values satisfy
`q[i] ≤ q[j]`: the backwards scan makes the sorted q-values non-decreasing,
and sorting places `i` strictly before `j`. -/
theorem qvalue_monotone (pv : List ℚ) (pi0 m : ℚ)
    (hv : ∀ p ∈ pv, 0 ≤ p ∧ p ≤ 1) (i j : ℕ) (hi : i < pv.length)
    (hj : j < pv.length) (hij : pv.getD i 0 < pv.getD j 0) :
    (qvalueFlat pv pi0 m).getD i 0 ≤ (qvalueFlat pv pi0 m).getD j 0 := by
  rw [qvalueFlat_getD pv pi0 m i hi, qvalueFlat_getD pv pi0 m j hj]
  apply backMin_getD_mono
  · exact le_of_lt (indexOf_lt_indexOf_of_lt pv i j hi hj hij)
  · rw [initQ_length, psortedL_length]
    exact indexOf_argsortIdx_lt pv j hj

/-- Witness for C2 at a concrete input: `p[1] = 1/4 < 3/4 = p[2]` forces
`q[1] ≤ q[2]` for `pi0 = 1/2`, `m = 3`. -/
theorem qvalue_monotone_witness :
    (qvalueFlat [(1:ℚ)/2, 1/4, 3/4] (1/2) 3).getD 1 0 ≤
      (qvalueFlat [(1:ℚ)/2, 1/4, 3/4] (1/2) 3).getD 2 0 :=
  qvalue_monotone [(1:ℚ)/2, 1/4, 3/4] (1/2) 3
    (by with_unfolding_all decide) 1 2 (by decide) (by decide)
    (by with_unfolding_all decide)

/-- Every element of the initial q-value list is nonnegative when the
p-values and `c = pi0 * m` are. -/
theorem initQ_nonneg (c : ℚ) (s : List ℚ) (hc : 0 ≤ c)
    (hs : ∀ p ∈ s, 0 ≤ p) : ∀ x ∈ initQ c s, 0 ≤ x := by
  intro x hx
  rw [initQ] at hx
  obtain ⟨k, hk, rfl⟩ := List.mem_map.mp hx
  have hk2 : k < s.length := List.mem_range.mp hk
  have hmem : s.getD k 0 ∈ s := by
    rw [List.getD_eq_getElem _ _ hk2]
    exact List.getElem_mem hk2
  apply div_nonneg (mul_nonneg hc (hs _ hmem))
  positivity

/-- C3 (amended): the code applies no clamp to the largest q-value — it is
exactly `pi0 * m * p_max / n` — but for every valid input, `pi0 ∈ (0,1]` and
positive `m` not exceeding the number `n` of p-values, every returned q-value
lies in `[0,1]`; for `m > n` the bound fails (see the counterexample). -/
theorem qvalue_bounded (pv : List ℚ) (pi0 m : ℚ)
    (hv : ∀ p ∈ pv, 0 ≤ p ∧ p ≤ 1) (hpi0 : 0 < pi0) (hpi1 : pi0 ≤ 1)
    (hm0 : 0 < m) (hmn : m ≤ (pv.length : ℚ)) :
    ∀ q ∈ qvalueFlat pv pi0 m, 0 ≤ q ∧ q ≤ 1 := by
  intro q hq
  obtain ⟨k, hk, hkq⟩ := List.getElem_of_mem hq
  have hi : k < pv.length := by
    rw [← qvalueFlat_length pv pi0 m]
    exact hk
  have hq2 : (qvalueFlat pv pi0 m).getD k 0 = q := by
    rw [List.getD_eq_getElem _ _ hk]
    exact hkq
  rw [← hq2, qvalueFlat_getD pv pi0 m k hi]
  have hpos := indexOf_argsortIdx_lt pv k hi
  have hlen : (initQ (pi0 * m) (psortedL pv)).length = pv.length := by
    rw [initQ_length, psortedL_length]
  have hmemv : ∀ p ∈ psortedL pv, 0 ≤ p ∧ p ≤ 1 := by
    intro p hp
    exact hv p ((psortedL_perm pv).mem_iff.mp hp)
  constructor
  · apply le_backMin_getD
    · exact initQ_nonneg _ _ (by positivity) (fun p hp => (hmemv p hp).1)
    · rw [hlen]
      exact hpos
  · have hn1 : 1 ≤ pv.length := by omega
    have hlast : pv.length - 1 < pv.length := by omega
    have hle := backMin_getD_le (initQ (pi0 * m) (psortedL pv))
      ((argsortIdx pv).indexOf k) (pv.length - 1) (by omega) (by omega)
    refine le_trans hle ?_
    rw [initQ_getD _ _ _ (by rw [psortedL_length]; exact hlast)]
    have hpl : (psortedL pv).getD (pv.length - 1) 0 ∈ psortedL pv := by
      rw [List.getD_eq_getElem _ _ (by rw [psortedL_length]; exact hlast)]
      exact List.getElem_mem _
    obtain ⟨hp0, hp1⟩ := hmemv _ hpl
    have hcast : ((pv.length - 1 : ℕ) : ℚ) + 1 = (pv.length : ℚ) := by
      rw [Nat.cast_sub hn1]
      ring
    rw [hcast]
    rw [div_le_one (by exact_mod_cast Nat.lt_of_lt_of_le Nat.zero_lt_one hn1)]
    set p := (psortedL pv).getD (pv.length - 1) 0
    nlinarith [mul_nonneg (le_of_lt hpi0) (le_of_lt hm0)]

/-- Witness for the amended C3 at a concrete input: `pv = [1/2, 1]`,
`pi0 = 1`, `m = 2`, evaluated at the first returned q-value. -/
theorem qvalue_bounded_witness :
    0 ≤ (qvalueFlat [(1:ℚ)/2, 1] 1 2).getD 0 0 ∧
      (qvalueFlat [(1:ℚ)/2, 1] 1 2).getD 0 0 ≤ 1 :=
  qvalue_bounded [(1:ℚ)/2, 1] 1 2 (by with_unfolding_all decide)
    (by decide) (by decide) (by decide) (by with_unfolding_all decide)
    ((qvalueFlat [(1:ℚ)/2, 1] 1 2).getD 0 0) (by with_unfolding_all decide)


/-! ### The min-stdev scan: first-argmin invariant -/

/-- The scan over `range R` returns the earliest index minimizing the sample
variance (`np.std(..., ddof=1)` squared): its value is a lower bound for all
scanned indices and a strict lower bound for all earlier ones. -/
theorem sdFold_range_spec (ps : List ℚ) (R : ℕ) (hR : 0 < R) :
    ∃ i, sdFold ps (List.range R) none = some (sampleVar ps i, i) ∧ i < R ∧
      (∀ j, j < R → sampleVar ps i ≤ sampleVar ps j) ∧
      (∀ j, j < i → sampleVar ps i < sampleVar ps j) := by
  induction R with
  | zero => omega
  | succ R ih =>
    rcases Nat.eq_zero_or_pos R with rfl | hR2
    · refine ⟨0, rfl, by omega, ?_, by omega⟩
      intro j hj
      have hj0 : j = 0 := by omega
      subst hj0
      exact le_refl _
    · obtain ⟨i, hfold, hiR, hmin, hfirst⟩ := ih hR2
      have hsplit : sdFold ps (List.range (R + 1)) none =
          sdStep ps (sdFold ps (List.range R) none) R := by
        rw [sdFold, List.range_succ, List.foldl_append]
        rfl
      rw [hsplit, hfold]
      by_cases hcase : sampleVar ps R < sampleVar ps i
      · refine ⟨R, ?_, by omega, ?_, ?_⟩
        · simp [sdStep, hcase]
        · intro j hj
          rcases Nat.lt_or_ge j R with h | h
          · exact le_of_lt (lt_of_lt_of_le hcase (hmin j h))
          · have hjR : j = R := by omega
            subst hjR
            exact le_refl _
        · intro j hj
          exact lt_of_lt_of_le hcase (hmin j (by omega))
      · refine ⟨i, ?_, by omega, ?_, hfirst⟩
        · simp [sdStep, hcase]
        · intro j hj
          rcases Nat.lt_or_ge j R with h | h
          · exact hmin j h
          · have hjR : j = R := by omega
            subst hjR
            exact not_lt.mp hcase

theorem lam_length : lam.length = 95 := by
  simp [lam]

/-- Every pi0 candidate is strictly positive: retained lambdas have a
positive exceedance count and lie strictly below 1. -/
theorem pi0s_pos (pv : List ℚ) (m : ℚ) (hm : 0 < m) :
    ∀ x ∈ pi0s pv m, 0 < x := by
  intro x hx
  rw [pi0s] at hx
  obtain ⟨l, hl, rfl⟩ := List.mem_map.mp hx
  have hcount : 0 < countExceeding pv l := by
    have := List.mem_takeWhile_imp hl
    simpa using this
  have hlam : l ∈ lam := (List.takeWhile_sublist _).mem hl
  have hlt1 : l < 1 := by
    rw [lam] at hlam
    obtain ⟨k, hk, rfl⟩ := List.mem_map.mp hlam
    have hk95 : k < 95 := by simpa using hk
    have hk2 : (k : ℚ) < 100 := by exact_mod_cast Nat.lt_of_lt_of_le hk95 (by omega)
    rw [div_lt_one (by norm_num)]
    exact hk2
  apply div_pos
  · exact_mod_cast hcount
  · have h1 : 0 < 1 - l := by linarith
    positivity

/-- The mean of a suffix of a positive list is positive. -/
theorem suffixMean_pos (l : List ℚ) (hl : ∀ x ∈ l, 0 < x) (i : ℕ)
    (hi : i < l.length) : 0 < suffixMean l i := by
  have hne : l.drop i ≠ [] := by
    intro hc
    have := congrArg List.length hc
    simp at this
    omega
  have hpos : ∀ x ∈ l.drop i, 0 < x := fun x hx => hl x (List.mem_of_mem_drop hx)
  have hsum : 0 < (l.drop i).sum := List.sum_pos _ hpos hne
  have hlen : 0 < ((l.drop i).length : ℚ) := by
    have : 0 < (l.drop i).length := List.length_pos.mpr hne
    exact_mod_cast this
  exact div_pos hsum hlen

/-- C9: pi0 range invariant.  For every valid input and positive `m`,
whenever `estimate_pi0` returns a value with no override that value lies in
`(0,1]` (the mean of positive candidates, clamped above by 1), and with an
override in `(0,1]` the returned value (the override itself) lies in `(0,1]`. -/
theorem estimate_pi0_range (pv : List ℚ) (m : ℚ)
    (hv : ∀ p ∈ pv, 0 ≤ p ∧ p ≤ 1) (hm : 0 < m) :
    (∀ r, estimate_pi0 pv m none = some r → 0 < r ∧ r ≤ 1) ∧
      (∀ o r, 0 < o → o ≤ 1 → estimate_pi0 pv m (some o) = some r →
        0 < r ∧ r ≤ 1) := by
  constructor
  · intro r hr
    rw [estimate_pi0] at hr
    by_cases hlen : pv.length < 100
    · rw [if_pos hlen] at hr
      have h1 : (1 : ℚ) = r := by simpa using hr
      rw [← h1]
      norm_num
    · rw [if_neg hlen] at hr
      simp only at hr
      rcases Nat.eq_zero_or_pos
          (min (lam.length * 90 / 100) ((pi0s pv m).length - 5)) with hR | hR
      · rw [hR] at hr
        simp [sdFold] at hr
      · obtain ⟨i, hfold, hiR, hmin2, hfirst⟩ :=
          sdFold_range_spec (pi0s pv m) _ hR
        rw [hfold] at hr
        have hi2 : i < (pi0s pv m).length := by
          have h5 : i < (pi0s pv m).length - 5 :=
            Nat.lt_of_lt_of_le hiR (min_le_right _ _)
          omega
        have hp0 : 0 < suffixMean (pi0s pv m) i :=
          suffixMean_pos _ (pi0s_pos pv m hm) i hi2
        have hr2 : (if 1 < suffixMean (pi0s pv m) i then (1:ℚ)
            else suffixMean (pi0s pv m) i) = r := by simpa using hr
        by_cases hgt : 1 < suffixMean (pi0s pv m) i
        · rw [if_pos hgt] at hr2
          rw [← hr2]
          norm_num
        · rw [if_neg hgt] at hr2
          rw [← hr2]
          exact ⟨hp0, not_lt.mp hgt⟩
  · intro o r ho1 ho2 hor
    have : o = r := by simpa [estimate_pi0] using hor
    rw [← this]
    exact ⟨ho1, ho2⟩

/-- Witness for C9 at a concrete input: a single p-value `1/2`, `m = 1`. -/
theorem estimate_pi0_range_witness :
    (∀ r, estimate_pi0 [(1:ℚ)/2] 1 none = some r → 0 < r ∧ r ≤ 1) ∧
      (∀ o r, 0 < o → o ≤ 1 → estimate_pi0 [(1:ℚ)/2] 1 (some o) = some r →
        0 < r ∧ r ≤ 1) :=
  estimate_pi0_range [(1:ℚ)/2] 1 (by with_unfolding_all decide) (by decide)

/-- C1: the pi0 estimation algorithm.  For at least 100 p-values, no
override and more than 5 surviving candidates, `estimate_pi0` returns
`min(1, mean(pi0s[i:]))` where `i` is the first starting index minimizing
the Bessel-corrected standard deviation of the candidate suffix (equivalently
its square `sampleVar`, as the square root is strictly monotone), the search
ranging over indices below `min(int(95 * 0.90), len(pi0s) - 5) =
min(85, len(pi0s) - 5)`. -/
theorem estimate_pi0_main (pv : List ℚ) (m : ℚ)
    (hv : ∀ p ∈ pv, 0 ≤ p ∧ p ≤ 1) (hlen : 100 ≤ pv.length)
    (hc : 5 < (pi0s pv m).length) :
    ∃ i, i < min 85 ((pi0s pv m).length - 5) ∧
      (∀ j, j < min 85 ((pi0s pv m).length - 5) →
        sampleVar (pi0s pv m) i ≤ sampleVar (pi0s pv m) j) ∧
      (∀ j, j < i → sampleVar (pi0s pv m) i < sampleVar (pi0s pv m) j) ∧
      estimate_pi0 pv m none = some (min 1 (suffixMean (pi0s pv m) i)) := by
  have h85 : lam.length * 90 / 100 = 85 := by rw [lam_length]
  have hR : 0 < min 85 ((pi0s pv m).length - 5) := by
    apply lt_min
    · omega
    · omega
  obtain ⟨i, hfold, hiR, hmin2, hfirst⟩ :=
    sdFold_range_spec (pi0s pv m) (min 85 ((pi0s pv m).length - 5)) hR
  refine ⟨i, hiR, hmin2, hfirst, ?_⟩
  rw [estimate_pi0, if_neg (by omega)]
  simp only [h85]
  rw [hfold]
  show some (if 1 < suffixMean (pi0s pv m) i then (1:ℚ)
      else suffixMean (pi0s pv m) i) = some (min 1 (suffixMean (pi0s pv m) i))
  congr 1
  by_cases hgt : 1 < suffixMean (pi0s pv m) i
  · rw [if_pos hgt, min_eq_left (le_of_lt hgt)]
  · rw [if_neg hgt, min_eq_right (not_lt.mp hgt)]

set_option maxRecDepth 40000 in
/-- Witness for C1 at a concrete input: 100 p-values equal to `6/100`
(6 surviving candidates, search range `range(min(85, 1)) = [0]`). -/
theorem estimate_pi0_main_witness :
    ∃ i, i < min 85 ((pi0s (List.replicate 100 (6/100 : ℚ)) 100).length - 5) ∧
      (∀ j, j < min 85 ((pi0s (List.replicate 100 (6/100 : ℚ)) 100).length - 5) →
        sampleVar (pi0s (List.replicate 100 (6/100 : ℚ)) 100) i ≤
          sampleVar (pi0s (List.replicate 100 (6/100 : ℚ)) 100) j) ∧
      (∀ j, j < i → sampleVar (pi0s (List.replicate 100 (6/100 : ℚ)) 100) i <
        sampleVar (pi0s (List.replicate 100 (6/100 : ℚ)) 100) j) ∧
      estimate_pi0 (List.replicate 100 (6/100 : ℚ)) 100 none =
        some (min 1 (suffixMean (pi0s (List.replicate 100 (6/100 : ℚ)) 100) i)) :=
  estimate_pi0_main (List.replicate 100 (6/100 : ℚ)) 100
    (by with_unfolding_all decide) (by decide) (by with_unfolding_all decide)


/-- C7 (amended): for every nonempty input, `qvalue` fails with the
InvalidInput assertion if and only if some p-value lies outside `[0,1]`,
before any q-value or pi0 computation, and when all p-values lie in `[0,1]`
the computation proceeds past validation (it neither asserts nor hits the
empty-array `ValueError`); for the empty input the claim fails, as `pv.min()`
raises `ValueError` although every p-value vacuously lies in `[0,1]`. -/
theorem qvalue_validation (a : NDArray) (pi0 m : Option ℚ)
    (hne : a.data ≠ []) :
    ((∃ p ∈ a.data, p < 0 ∨ 1 < p) ↔
      qvalueRun a pi0 m = Except.error PyErr.assertError) ∧
      ((∀ p ∈ a.data, 0 ≤ p ∧ p ≤ 1) →
        qvalueRun a pi0 m ≠ Except.error PyErr.assertError ∧
          qvalueRun a pi0 m ≠ Except.error PyErr.valueError) := by
  obtain ⟨lo, hmin⟩ : ∃ lo, a.data.min? = some lo := by
    cases hm2 : a.data.min? with
    | none => exact absurd (List.min?_eq_none_iff.mp hm2) hne
    | some lo => exact ⟨lo, rfl⟩
  obtain ⟨hi, hmax⟩ : ∃ hi, a.data.max? = some hi := by
    cases hm2 : a.data.max? with
    | none => exact absurd (List.max?_eq_none_iff.mp hm2) hne
    | some hi => exact ⟨hi, rfl⟩
  have hlo_mem : lo ∈ a.data := List.min?_mem (fun a b => min_choice a b) hmin
  have hhi_mem : hi ∈ a.data := List.max?_mem (fun a b => max_choice a b) hmax
  have hlo_le : ∀ p ∈ a.data, lo ≤ p :=
    fun p hp => ((List.le_min?_iff (fun a b c => le_min_iff) hmin).mp
      (le_refl lo)) p hp
  have hle_hi : ∀ p ∈ a.data, p ≤ hi :=
    fun p hp => ((List.max?_le_iff (fun a b c => max_le_iff) hmax).mp
      (le_refl hi)) p hp
  have hrun : qvalueRun a pi0 m =
      if 0 ≤ lo ∧ hi ≤ 1 then
        (match estimate_pi0 a.data (defaultM a.data m) pi0 with
        | none => Except.error PyErr.keyError
        | some p0 =>
          Except.ok (⟨a.shape, qvalueFlat a.data p0 (defaultM a.data m)⟩, p0))
      else Except.error PyErr.assertError := by
    rw [qvalueRun, hmin, hmax]
  by_cases hcond : 0 ≤ lo ∧ hi ≤ 1
  · have hok : qvalueRun a pi0 m ≠ Except.error PyErr.assertError ∧
        qvalueRun a pi0 m ≠ Except.error PyErr.valueError := by
      rw [hrun, if_pos hcond]
      cases estimate_pi0 a.data (defaultM a.data m) pi0 with
      | none => exact ⟨by simp, by simp⟩
      | some p0 => exact ⟨by simp, by simp⟩
    constructor
    · constructor
      · intro hout
        obtain ⟨p, hp, hpout⟩ := hout
        rcases hpout with h1 | h1
        · exact absurd (lt_of_le_of_lt (le_trans hcond.1 (hlo_le p hp)) h1)
            (lt_irrefl 0)
        · exact absurd (lt_of_le_of_lt (le_trans (hle_hi p hp) hcond.2) h1)
            (lt_irrefl p)
      · intro heq
        exact absurd heq hok.1
    · intro _
      exact hok
  · have hfail : qvalueRun a pi0 m = Except.error PyErr.assertError := by
      rw [hrun, if_neg hcond]
    constructor
    · constructor
      · intro _
        exact hfail
      · intro _
        rcases not_and_or.mp hcond with h1 | h1
        · exact ⟨lo, hlo_mem, Or.inl (not_le.mp h1)⟩
        · exact ⟨hi, hhi_mem, Or.inr (not_le.mp h1)⟩
    · intro hall
      exfalso
      apply hcond
      exact ⟨(hall lo hlo_mem).1, (hall hi hhi_mem).2⟩

/-- Witness for the amended C7 at a concrete input: one in-range and one
out-of-range scenario follow from instantiating at `[1/2, 1]`. -/
theorem qvalue_validation_witness :
    ((∃ p ∈ ([(1:ℚ)/2, 1] : List ℚ), p < 0 ∨ 1 < p) ↔
      qvalueRun ⟨[2], [(1:ℚ)/2, 1]⟩ (some 1) (some 2) =
        Except.error PyErr.assertError) ∧
      ((∀ p ∈ ([(1:ℚ)/2, 1] : List ℚ), 0 ≤ p ∧ p ≤ 1) →
        qvalueRun ⟨[2], [(1:ℚ)/2, 1]⟩ (some 1) (some 2) ≠
          Except.error PyErr.assertError ∧
          qvalueRun ⟨[2], [(1:ℚ)/2, 1]⟩ (some 1) (some 2) ≠
            Except.error PyErr.valueError) :=
  qvalue_validation ⟨[2], [(1:ℚ)/2, 1]⟩ (some 1) (some 2) (by simp)


/-! ### Pointwise characterization of q-values and permutation invariance -/

/-- In a sorted list, positions with value strictly below `p` are exactly the
first `countLt s p` positions. -/
theorem countLt_pos_iff (s : List ℚ) (hs : List.Sorted (· ≤ ·) s) (p : ℚ) :
    ∀ j, j < s.length → (s.getD j 0 < p ↔ j < countLt s p) := by
  induction s with
  | nil =>
    intro j hj
    simp at hj
  | cons x xs ih =>
    intro j hj
    rw [countLt, List.countP_cons]
    by_cases hx : x < p
    · have hx2 : (decide (x < p) = true) := by simpa using hx
      rw [if_pos hx2]
      cases j with
      | zero =>
        simp only [List.getD_cons_zero]
        constructor
        · intro _
          omega
        · intro _
          exact hx
      | succ j =>
        rw [List.getD_cons_succ]
        have hiff := ih hs.of_cons j (by simpa using hj)
        rw [countLt] at hiff
        rw [hiff]
        omega
    · have hple : p ≤ x := not_lt.mp hx
      have hall : ∀ y ∈ xs, ¬(decide (y < p) = true) := by
        intro y hy
        have hxy : x ≤ y := List.rel_of_sorted_cons hs y hy
        simp only [decide_eq_true_eq]
        exact not_lt.mpr (le_trans hple hxy)
      have hzero : xs.countP (fun y => decide (y < p)) = 0 :=
        List.countP_eq_zero.mpr hall
      rw [if_neg (by simpa using hx), hzero]
      cases j with
      | zero =>
        simp only [List.getD_cons_zero]
        constructor
        · intro hc
          exact absurd hc hx
        · intro hc
          omega
      | succ j =>
        rw [List.getD_cons_succ]
        have hj2 : j < xs.length := by simpa using hj
        have hmem : xs.getD j 0 ∈ xs := by
          rw [List.getD_eq_getElem _ _ hj2]
          exact List.getElem_mem _
        constructor
        · intro hc
          exact absurd (by simpa using hc) (hall _ hmem)
        · intro hc
          omega

/-- Pointwise characterization: for nonnegative p-values and `pi0 * m ≥ 0`,
the q-value at original position `i` is `qOf (pi0 * m)` of the p-value at
`i` — a function only of that p-value and of the multiset of p-values.  (The
value at the first sorted position of the tie block equals the value at the
actual sorted position of `i`, because within the block the initial q-values
only shrink as the rank grows.) -/
theorem qvalueFlat_getD_eq_qOf (pv : List ℚ) (pi0 m : ℚ) (hc : 0 ≤ pi0 * m)
    (hv : ∀ p ∈ pv, 0 ≤ p) (i : ℕ) (hi : i < pv.length) :
    (qvalueFlat pv pi0 m).getD i 0 = qOf (pi0 * m) pv (pv.getD i 0) := by
  rw [qvalueFlat_getD pv pi0 m i hi, qOf, ← psortedL_eq_sortedVals]
  set s := psortedL pv with hsdef
  set c := pi0 * m with hcdef
  set pos := (argsortIdx pv).indexOf i with hposdef
  set p := pv.getD i 0 with hpdef
  set a := countLt s p with hadef
  have hslen : s.length = pv.length := psortedL_length pv
  have hpos : pos < pv.length := indexOf_argsortIdx_lt pv i hi
  have hval : s.getD pos 0 = p := psortedL_getD_indexOf pv i hi
  have hsorted := psortedL_sorted pv
  have hiff := countLt_pos_iff s hsorted p
  have hp0 : 0 ≤ p := by
    apply hv
    rw [hpdef, List.getD_eq_getElem _ _ hi]
    exact List.getElem_mem _
  have hapos : a ≤ pos := by
    by_contra hcon
    push_neg at hcon
    have := (hiff pos (by omega)).mpr hcon
    rw [hval] at this
    exact lt_irrefl p this
  have hblock : ∀ j, a ≤ j → j < pos → s.getD j 0 = p := by
    intro j hja hjpos
    have h1 : ¬(s.getD j 0 < p) := by
      intro hlt
      have := (hiff j (by omega)).mp hlt
      omega
    have h2 : s.getD j 0 ≤ s.getD pos 0 := by
      have hj2 : j < s.length := by omega
      have hpos2 : pos < s.length := by omega
      have := hsorted.rel_get_of_lt (a := ⟨j, hj2⟩) (b := ⟨pos, hpos2⟩)
        (by simpa using hjpos)
      rw [List.getD_eq_getElem _ _ hj2, List.getD_eq_getElem _ _ hpos2]
      simpa using this
    rw [hval] at h2
    exact le_antisymm h2 (not_lt.mp h1)
  have hL : (initQ c s).length = pv.length := by rw [initQ_length, hslen]
  have h3 : a + (pos - a) = pos := by omega
  have hge : ∀ j, a ≤ j → j < a + (pos - a) →
      (backMin (initQ c s)).getD (a + (pos - a)) 0 ≤ (initQ c s).getD j 0 := by
    intro j hja hjlt
    rw [h3] at hjlt ⊢
    rw [initQ_getD c s j (by omega), hblock j hja hjlt]
    have hself := backMin_getD_le_self (initQ c s) pos (by omega)
    rw [initQ_getD c s pos (by omega), hval] at hself
    refine le_trans hself ?_
    have hj1 : (0:ℚ) < (j:ℚ) + 1 := by positivity
    have hpos1 : (0:ℚ) < (pos:ℚ) + 1 := by positivity
    have hjpos2 : (j:ℚ) + 1 ≤ (pos:ℚ) + 1 := by
      have hcast : (j:ℚ) ≤ (pos:ℚ) := by exact_mod_cast le_of_lt hjlt
      linarith
    rw [div_le_div_iff₀ hpos1 hj1]
    nlinarith [mul_nonneg hc hp0]
  have heq := backMin_getD_eq_add (initQ c s) a (pos - a) (by omega) hge
  rw [h3] at heq
  exact heq.symm

/-- Sorting is permutation-invariant: permuted inputs have identical sorted
value lists. -/
theorem sortedVals_perm_eq (pv qv : List ℚ) (h : List.Perm pv qv) :
    sortedVals pv = sortedVals qv := by
  rw [sortedVals, sortedVals]
  apply List.eq_of_perm_of_sorted _ (List.sorted_insertionSort _ _)
    (List.sorted_insertionSort _ _)
  exact (List.perm_insertionSort _ pv).trans
    (h.trans (List.perm_insertionSort _ qv).symm)

/-- C6: shape and order preservation.  The returned array keeps the input
shape (the data is reshaped to `original_shape`) and its flattened data has
the input length; and permuting the input p-values (by any permutation `σ`)
permutes the output q-values identically, for the same `pi0` and `m`. -/
theorem qvalue_shape_perm (a : NDArray) (pi0 m : ℚ)
    (hv : ∀ p ∈ a.data, 0 ≤ p ∧ p ≤ 1) (hpi0 : 0 ≤ pi0) (hm : 0 ≤ m)
    (σ : Equiv.Perm (Fin a.data.length)) :
    (∀ b r, qvalueRun a (some pi0) (some m) = Except.ok (b, r) →
      b.shape = a.shape ∧ b.data.length = a.data.length) ∧
    qvalueFlat (List.ofFn (fun k => a.data.get (σ k))) pi0 m =
      List.ofFn (fun k => (qvalueFlat a.data pi0 m).getD ((σ k : Fin a.data.length) : ℕ) 0) := by
  constructor
  · intro b r hok
    cases hmin : a.data.min? with
    | none =>
      have hval2 : qvalueRun a (some pi0) (some m) =
          Except.error PyErr.valueError := by
        cases hmax : a.data.max? with
        | none => rw [qvalueRun, hmin, hmax]
        | some hi => rw [qvalueRun, hmin, hmax]
      rw [hval2] at hok
      simp at hok
    | some lo =>
      cases hmax : a.data.max? with
      | none =>
        have hval2 : qvalueRun a (some pi0) (some m) =
            Except.error PyErr.valueError := by
          rw [qvalueRun, hmin, hmax]
        rw [hval2] at hok
        simp at hok
      | some hi =>
        have hrun2 : qvalueRun a (some pi0) (some m) =
            if 0 ≤ lo ∧ hi ≤ 1 then
              Except.ok
                (⟨a.shape, qvalueFlat a.data pi0 (defaultM a.data (some m))⟩, pi0)
            else Except.error PyErr.assertError := by
          rw [qvalueRun, hmin, hmax]
          rfl
        rw [hrun2] at hok
        by_cases hcond : 0 ≤ lo ∧ hi ≤ 1
        · rw [if_pos hcond] at hok
          simp only [Except.ok.injEq, Prod.mk.injEq] at hok
          obtain ⟨hb, hr⟩ := hok
          rw [← hb]
          exact ⟨rfl, qvalueFlat_length _ _ _⟩
        · rw [if_neg hcond] at hok
          simp at hok
  · have hcm : 0 ≤ pi0 * m := mul_nonneg hpi0 hm
    have hv0 : ∀ p ∈ a.data, 0 ≤ p := fun p hp => (hv p hp).1
    have hperm : List.Perm (List.ofFn (fun k => a.data.get (σ k))) a.data := by
      have h2 := Equiv.Perm.ofFn_comp_perm σ a.data.get
      rw [List.ofFn_get] at h2
      exact h2
    have hv2 : ∀ p ∈ List.ofFn (fun k => a.data.get (σ k)), 0 ≤ p :=
      fun p hp => hv0 p (hperm.mem_iff.mp hp)
    have hlen2 : (List.ofFn (fun k => a.data.get (σ k))).length = a.data.length := by
      simp
    apply List.ext_getElem
    · rw [qvalueFlat_length, hlen2, List.length_ofFn]
    · intro k h1 h2
      have hk : k < a.data.length := by
        rw [qvalueFlat_length, hlen2] at h1
        exact h1
      rw [← List.getD_eq_getElem _ 0 h1, ← List.getD_eq_getElem _ 0 h2]
      rw [qvalueFlat_getD_eq_qOf _ pi0 m hcm hv2 k (by rw [hlen2]; exact hk)]
      have hR : (List.ofFn (fun k => (qvalueFlat a.data pi0 m).getD
          ((σ k : Fin a.data.length) : ℕ) 0)).getD k 0 =
          (qvalueFlat a.data pi0 m).getD ((σ ⟨k, hk⟩ : Fin a.data.length) : ℕ) 0 := by
        rw [List.getD_eq_getElem _ 0 h2, List.getElem_ofFn]
      rw [hR]
      have hL : (List.ofFn (fun k => a.data.get (σ k))).getD k 0 =
          a.data.getD ((σ ⟨k, hk⟩ : Fin a.data.length) : ℕ) 0 := by
        rw [List.getD_eq_getElem _ 0 (by rw [hlen2]; exact hk), List.getElem_ofFn]
        rw [List.getD_eq_getElem _ 0 (σ ⟨k, hk⟩).isLt]
        simp [List.get_eq_getElem]
      rw [hL]
      rw [qvalueFlat_getD_eq_qOf a.data pi0 m hcm hv0 _ (σ ⟨k, hk⟩).isLt]
      rw [qOf, qOf, sortedVals_perm_eq _ _ hperm]

/-- Witness for C6 at a concrete input: the identity permutation on the
two-element array `[1/2, 1]` with shape `[2]`, `pi0 = 1`, `m = 2`. -/
theorem qvalue_shape_perm_witness :
    (∀ b r, qvalueRun ⟨[2], [(1:ℚ)/2, 1]⟩ (some 1) (some 2) = Except.ok (b, r) →
      b.shape = [2] ∧ b.data.length = ([(1:ℚ)/2, 1] : List ℚ).length) ∧
    qvalueFlat (List.ofFn (fun k => ([(1:ℚ)/2, 1] : List ℚ).get
        (Equiv.refl (Fin ([(1:ℚ)/2, 1] : List ℚ).length) k))) 1 2 =
      List.ofFn (fun k => (qvalueFlat [(1:ℚ)/2, 1] 1 2).getD
        ((Equiv.refl (Fin ([(1:ℚ)/2, 1] : List ℚ).length) k :
          Fin ([(1:ℚ)/2, 1] : List ℚ).length) : ℕ) 0) :=
  qvalue_shape_perm ⟨[2], [(1:ℚ)/2, 1]⟩ 1 2 (by with_unfolding_all decide)
    (by decide) (by decide) (Equiv.refl _)

end Qvalue
